import Mathlib

/-!
Verification development for the SlurmTop terminal dashboard
(`src/slurmtop.cpp`).  The C++ program is shallowly embedded below:
status blobs are `List Char`, C++ `int`/`long` become `Int` (all the
arithmetic relevant to the verified properties stays far from the
overflow boundaries, which are modelled explicitly in the `stoi`/`stol`
range checks), and the stateful UI code becomes explicit state passing.
-/

namespace SlurmTop

/-! ### String search primitives (mirroring `std::string::find` family) -/

/-- First index at which `pat` occurs as a contiguous block of `l`
(`std::string::find` on the suffix view). -/
def findSub (pat : List Char) : List Char → Option Nat
  | [] => if pat.isPrefixOf ([] : List Char) then some 0 else none
  | c :: rest =>
    if pat.isPrefixOf (c :: rest) then some 0
    else (findSub pat rest).map (· + 1)

/-- `std::string::find(pat, start)`: first occurrence of `pat` at index ≥ `start`. -/
def findSubFrom (s pat : List Char) (start : Nat) : Option Nat :=
  (findSub pat (s.drop start)).map (· + start)

/-- `std::string::find(c, start)` for a single character. -/
def findCharFrom (s : List Char) (c : Char) (start : Nat) : Option Nat :=
  findSubFrom s [c] start

/-- Helper for `find_first_of`: first index whose character is in `set`. -/
def findFirstOfAux (set : List Char) : List Char → Option Nat
  | [] => none
  | c :: rest =>
    if set.contains c then some 0
    else (findFirstOfAux set rest).map (· + 1)

/-- `std::string::find_first_of(set, start)`. -/
def findFirstOfFrom (s set : List Char) (start : Nat) : Option Nat :=
  (findFirstOfAux set (s.drop start)).map (· + start)

/-- `std::string::substr(pos, len)` (callers only use in-range arguments). -/
def substrL (s : List Char) (pos len : Nat) : List Char :=
  (s.drop pos).take len

/-! ### Text sanitizer (`stripControlChars`, slurmtop.cpp lines 74-85) -/

/-- `stripControlChars`: keep printable ASCII (32–126), turn tabs into a
single space, drop every other byte.  Accumulator-style, mirroring the
C++ `result += c` loop. -/
def stripControlChars (str : List Char) : List Char :=
  str.foldl
    (fun acc c =>
      if 32 ≤ c.toNat ∧ c.toNat ≤ 126 then acc ++ [c]
      else if c = '\t' then acc ++ [' ']
      else acc)
    []

/-- Per-character sanitization map used to state the spec's byte-wise
description of the sanitizer. -/
def sanitizeChar (c : Char) : Option Char :=
  if 32 ≤ c.toNat ∧ c.toNat ≤ 126 then some c
  else if c = '\t' then some ' '
  else none

/-! ### Field extractor (`extractField`, slurmtop.cpp lines 88-99) -/

/-- `extractField`: value of the first `fieldName=` token, running to the
next space, else the next newline, else end of blob, sanitized. -/
def extractField (output fieldName : List Char) : List Char :=
  match findSub (fieldName ++ ['=']) output with
  | none => []
  | some pos =>
    let vstart := pos + fieldName.length + 1
    let e :=
      match findCharFrom output ' ' vstart with
      | some e => e
      | none =>
        match findCharFrom output '\n' vstart with
        | some e => e
        | none => output.length
    stripControlChars (substrL output vstart (e - vstart))

/-- Spec-side description of the extracted value: the remainder of the
blob after the `=`, cut at the first space, else at the first newline,
else kept whole. -/
def specSlice (rest : List Char) : List Char :=
  if ' ' ∈ rest then rest.takeWhile (fun c => !(c == ' '))
  else if '\n' ∈ rest then rest.takeWhile (fun c => !(c == '\n'))
  else rest

/-! ### Integer parsing (`std::stoi` / `std::stol` with try/catch → 0) -/

/-- The whitespace class of `strtol` (default locale `isspace`). -/
def isSpaceCxx (c : Char) : Bool :=
  c == ' ' || c == '\t' || c == '\n' || c == '\x0b' || c == '\x0c' || c == '\r'

/-- Value of a digit run. -/
def digitsToInt (l : List Char) : Int :=
  l.foldl (fun acc c => acc * 10 + ((c.toNat : Int) - 48)) 0

/-- Leading-integer parse of `strtol`: optional whitespace, optional
sign, then at least one digit; `none` when no digits are found. -/
def parseCxxInt (s : List Char) : Option Int :=
  match s.dropWhile isSpaceCxx with
  | [] => none
  | c :: rest =>
    let body := if c = '-' ∨ c = '+' then rest else c :: rest
    let ds := body.takeWhile (fun d => d.isDigit)
    if ds = [] then none
    else some ((if c = '-' then -1 else 1) * digitsToInt ds)

/-- `std::stoi` wrapped in the program's `try { … } catch (...) { 0 }`. -/
def stoiOr0 (s : List Char) : Int :=
  match parseCxxInt s with
  | none => 0
  | some v => if v < -(2 ^ 31) ∨ 2 ^ 31 - 1 < v then 0 else v

/-- `std::stol` wrapped in the program's `try { … } catch (...) { 0 }`. -/
def stolOr0 (s : List Char) : Int :=
  match parseCxxInt s with
  | none => 0
  | some v => if v < -(2 ^ 63) ∨ 2 ^ 63 - 1 < v then 0 else v

/-! ### GPU resource extractor (`extractGPUInfo`, slurmtop.cpp lines 102-156) -/

def sGresTyped : List Char := "gres/gpu:".toList
def sGresUntyped : List Char := "gres/gpu=".toList
def sNA : List Char := "N/A".toList
def sGeneric : List Char := "generic".toList
def countDelims : List Char := [' ', ',', '\n']

/-- The untyped branch of `extractGPUInfo` (`gres/gpu=COUNT`). -/
def extractGPUUntyped (output : List Char) (fieldPos : Nat) : Int × List Char :=
  match findSubFrom output sGresUntyped fieldPos with
  | none => (0, sNA)
  | some untypedPos =>
    let countStart := untypedPos + 9
    let countEnd :=
      match findFirstOfFrom output countDelims countStart with
      | some e => e
      | none => output.length
    (stoiOr0 (substrL output countStart (countEnd - countStart)), sGeneric)

/-- `extractGPUInfo`: locate the field, try the typed `gres/gpu:TYPE=COUNT`
pattern first, then fall back to the untyped `gres/gpu=COUNT` pattern. -/
def extractGPUInfo (output fieldName : List Char) : Int × List Char :=
  match findSub (fieldName ++ ['=']) output with
  | none => (0, sNA)
  | some fieldPos =>
    match findSubFrom output sGresTyped fieldPos with
    | some typedPos =>
      let typeStart := typedPos + 9
      match findCharFrom output '=' typeStart with
      | some typeEnd =>
        let gpuType := stripControlChars (substrL output typeStart (typeEnd - typeStart))
        let countStart := typeEnd + 1
        let countEnd :=
          match findFirstOfFrom output countDelims countStart with
          | some e => e
          | none => output.length
        (stoiOr0 (substrL output countStart (countEnd - countStart)), gpuType)
      | none => extractGPUUntyped output fieldPos
    | none => extractGPUUntyped output fieldPos

/-! ### Job record parser (`parseJobDetails`, slurmtop.cpp lines 159-188) -/

structure Job where
  jobId : List Char
  jobName : List Char
  account : List Char
  state : List Char
  reason : List Char
  gpuCount : Int
  gpuType : List Char
  runtime : List Char
  timeLimit : List Char
  priority : Int
deriving DecidableEq, Repr

def sRUNNING : List Char := "RUNNING".toList
def sPENDING : List Char := "PENDING".toList
def sJobName : List Char := "JobName".toList
def sAccount : List Char := "Account".toList
def sJobState : List Char := "JobState".toList
def sReason : List Char := "Reason".toList
def sRunTime : List Char := "RunTime".toList
def sTimeLimit : List Char := "TimeLimit".toList
def sPriority : List Char := "Priority".toList
def sAllocTRES : List Char := "AllocTRES".toList
def sReqTRES : List Char := "ReqTRES".toList

/-- `parseJobDetails`: populate all fields via the extractors; GPU info
comes from `AllocTRES` alone for running jobs, and from `ReqTRES` with an
`AllocTRES` fallback (exactly when the count is 0) otherwise. -/
def parseJobDetails (jobId scontrolOutput : List Char) : Job :=
  let state := extractField scontrolOutput sJobState
  let gpu :=
    if state = sRUNNING then extractGPUInfo scontrolOutput sAllocTRES
    else
      let req := extractGPUInfo scontrolOutput sReqTRES
      if req.1 = 0 then extractGPUInfo scontrolOutput sAllocTRES else req
  { jobId := jobId
    jobName := extractField scontrolOutput sJobName
    account := extractField scontrolOutput sAccount
    state := state
    reason := extractField scontrolOutput sReason
    gpuCount := gpu.1
    gpuType := gpu.2
    runtime := extractField scontrolOutput sRunTime
    timeLimit := extractField scontrolOutput sTimeLimit
    priority := stolOr0 (extractField scontrolOutput sPriority) }

/-! ### Snapshot aggregator (`SlurmData` / `fetchSlurmData`, lines 41-58, 191-251) -/

structure SlurmData where
  username : List Char
  jobs : List Job
  allPendingJobs : List Job
  totalJobs : Int
  runningJobs : Int
  pendingJobs : Int
  gpuTypeCount : List (List Char × Int)
  gpuTypeRequested : List (List Char × Int)
deriving DecidableEq, Repr

/-- `SlurmData::clear()` followed by keeping the username. -/
def clearedData (username : List Char) : SlurmData :=
  { username := username, jobs := [], allPendingJobs := []
    totalJobs := 0, runningJobs := 0, pendingJobs := 0
    gpuTypeCount := [], gpuTypeRequested := [] }

/-- `std::map` `m[k] += v` on an association-list model of the map. -/
def mapAdd : List (List Char × Int) → List Char → Int → List (List Char × Int)
  | [], k, v => [(k, v)]
  | (k', v') :: rest, k, v =>
    if k' = k then (k', v' + v) :: rest else (k', v') :: mapAdd rest k v

/-- One iteration body of the owned-jobs loop of `fetchSlurmData` (lines
212-225): append the parsed record and classify it by state. -/
def ownedStep (d : SlurmData) (job : Job) : SlurmData :=
  let d1 := { d with jobs := d.jobs ++ [job] }
  if job.state = sRUNNING then
    { d1 with
      runningJobs := d1.runningJobs + 1
      gpuTypeCount :=
        if 0 < job.gpuCount then mapAdd d1.gpuTypeCount job.gpuType job.gpuCount
        else d1.gpuTypeCount }
  else if job.state = sPENDING then
    { d1 with
      pendingJobs := d1.pendingJobs + 1
      gpuTypeRequested :=
        if 0 < job.gpuCount then mapAdd d1.gpuTypeRequested job.gpuType job.gpuCount
        else d1.gpuTypeRequested }
  else d1

/-- The owned-jobs loop of `fetchSlurmData`: skip empty blobs, otherwise
parse and classify. -/
def processOwned (fetch : List Char → List Char) :
    List (List Char) → SlurmData → SlurmData
  | [], d => d
  | jid :: rest, d =>
    if fetch jid = [] then processOwned fetch rest d
    else processOwned fetch rest (ownedStep d (parseJobDetails jid (fetch jid)))

/-- One iteration body of the cluster-wide pending loop (lines 240-245):
keep the parsed record when its priority is positive. -/
def pendingStep (acc : List Job) (job : Job) : List Job :=
  if 0 < job.priority then acc ++ [job] else acc

/-- The cluster-wide pending loop of `fetchSlurmData`: skip empty blobs,
keep parsed records with positive priority. -/
def processPending (fetch : List Char → List Char) :
    List (List Char) → List Job → List Job
  | [], acc => acc
  | jid :: rest, acc =>
    if fetch jid = [] then processPending fetch rest acc
    else processPending fetch rest (pendingStep acc (parseJobDetails jid (fetch jid)))

/-- Comparator of the `std::sort` calls (`a.priority > b.priority`), as the
non-strict "may precede" relation a conforming sort realizes. -/
def priorityGE (a b : Job) : Bool := b.priority ≤ a.priority

/-- `fetchSlurmData`: the whole refresh pass over the enumerated
identifiers and the external fetcher.  The external command execution and
whitespace splitting are abstracted into the identifier lists and the
`fetch` function (empty blob = unavailable). -/
def fetchSlurmData (username : List Char) (ownedIds pendingIds : List (List Char))
    (fetch : List Char → List Char) : SlurmData :=
  let d1 := processOwned fetch ownedIds (clearedData username)
  let d2 := { d1 with totalJobs := (d1.jobs.length : Int) }
  { d2 with allPendingJobs := (processPending fetch pendingIds []).mergeSort priorityGE }

/-! ### Adaptive column layout engine (lines 296-460) -/

def runningHeaders : List (List Char) :=
  ["JobID".toList, "JobName".toList, "Account".toList, "Runtime".toList,
   "TimeLimit".toList, "GPUs".toList, "GPU Type".toList, "Status".toList]

def pendingHeaders : List (List Char) :=
  ["JobID".toList, "JobName".toList, "Account".toList, "Reason".toList,
   "TimeLimit".toList, "GPUs".toList, "GPU Type".toList, "Priority".toList,
   "Higher".toList]

/-- Rendered length of a cell in the pending view (switch at lines 313-330);
column 8 is the derived higher-priority count over `allPendingJobs`. -/
def jobColLenPending (allPending : List Job) (job : Job) : Nat → Nat
  | 0 => job.jobId.length
  | 1 => job.jobName.length
  | 2 => job.account.length
  | 3 => job.reason.length
  | 4 => job.timeLimit.length
  | 5 => (toString job.gpuCount).length
  | 6 => job.gpuType.length
  | 7 => (toString job.priority).length
  | 8 => (toString (allPending.countP (fun o => job.priority < o.priority))).length
  | _ => 0

/-- Rendered length of a cell in the running/all view (switch at lines 333-342). -/
def jobColLenRunning (job : Job) : Nat → Nat
  | 0 => job.jobId.length
  | 1 => job.jobName.length
  | 2 => job.account.length
  | 3 => job.runtime.length
  | 4 => job.timeLimit.length
  | 5 => (toString job.gpuCount).length
  | 6 => job.gpuType.length
  | 7 => job.state.length
  | _ => 0

/-- `getMaxColumnWidth`: max of header length and all cell lengths, plus
one for spacing, capped at 50. -/
def getMaxColumnWidth (columnIndex : Nat) (jobs : List Job) (isPendingView : Bool)
    (allPending : List Job) : Int :=
  let headers := if isPendingView then pendingHeaders else runningHeaders
  let base := (headers.getD columnIndex []).length
  let m := jobs.foldl
    (fun acc job =>
      max acc (if isPendingView then jobColLenPending allPending job columnIndex
               else jobColLenRunning job columnIndex))
    base
  min ((m : Int) + 1) 50

/-- The per-column required widths, as the engine recomputes them. -/
def reqList (n : Nat) (jobs : List Job) (isPendingView : Bool)
    (allPending : List Job) : List Int :=
  (List.range n).map (fun i => getMaxColumnWidth i jobs isPendingView allPending)

/-- Initial focused-mode assignment: the focused index gets `fw`, every
other index `i` gets `min requiredWidths[i] share`. -/
def initWidthsGo (share fw : Int) (f : Int) : List Int → Nat → List Int
  | [], _ => []
  | r :: rs, i =>
    (if (i : Int) = f then fw else min r share) :: initWidthsGo share fw f rs (i + 1)

/-- Sum of the entries at non-focused indices (`usedByOthers` loop). -/
def sumSkip (f : Int) : Nat → List Int → Int
  | _, [] => 0
  | i, w :: ws => (if (i : Int) = f then 0 else w) + sumSkip f (i + 1) ws

/-- First redistribution pass: grow still-capped non-focused columns
toward their required width, in index order, while leftover remains. -/
def growthPass (f : Int) (reqs : List Int) : List Int → Int → Nat → List Int × Int
  | [], leftover, _ => ([], leftover)
  | w :: ws, leftover, i =>
    if 0 < leftover ∧ (i : Int) ≠ f then
      let canGrow := reqs.getD i 0 - w
      if 0 < canGrow then
        let toAdd := min canGrow leftover
        let r := growthPass f reqs ws (leftover - toAdd) (i + 1)
        ((w + toAdd) :: r.1, r.2)
      else
        let r := growthPass f reqs ws leftover (i + 1)
        (w :: r.1, r.2)
    else
      let r := growthPass f reqs ws leftover (i + 1)
      (w :: r.1, r.2)

/-- Second redistribution pass (also the final even pass of default
mode): a single sweep adding one unit per non-skipped column while
leftover remains.  `f = -1` skips nothing. -/
def onePass (f : Int) : List Int → Int → Nat → List Int × Int
  | [], leftover, _ => ([], leftover)
  | w :: ws, leftover, i =>
    if 0 < leftover ∧ (i : Int) ≠ f then
      let r := onePass f ws (leftover - 1) (i + 1)
      ((w + 1) :: r.1, r.2)
    else
      let r := onePass f ws leftover (i + 1)
      (w :: r.1, r.2)

/-- Focused-mode width computation (lines 358-412). -/
def calcFocused (tw : Int) (n : Nat) (reqs : List Int) (f : Int) : List Int :=
  let avail := tw - ((n : Int) - 1) - 2
  let fNeeded := reqs.getD f.toNat 0 + 2
  let fw := min fNeeded avail
  let remaining := avail - fw
  let share := Int.tdiv remaining ((n : Int) - 1)
  let ws0 := initWidthsGo share fw f reqs 0
  let leftover := remaining - sumSkip f 0 ws0
  if 0 < leftover then
    let r1 := growthPass f reqs ws0 leftover 0
    (onePass f r1.1 r1.2 0).1
  else ws0

/-- The initial leftover of focused mode (`leftover` at line 390). -/
def focusedLeftover0 (tw : Int) (n : Nat) (reqs : List Int) (f : Int) : Int :=
  let avail := tw - ((n : Int) - 1) - 2
  let fNeeded := reqs.getD f.toNat 0 + 2
  let fw := min fNeeded avail
  let remaining := avail - fw
  let share := Int.tdiv remaining ((n : Int) - 1)
  let ws0 := initWidthsGo share fw f reqs 0
  remaining - sumSkip f 0 ws0

/-- The leftover remaining after the growth pass of focused mode (the
value of `leftover` entering the final even sweep). -/
def focusedGrowthLeftover (tw : Int) (n : Nat) (reqs : List Int) (f : Int) : Int :=
  let avail := tw - ((n : Int) - 1) - 2
  let fNeeded := reqs.getD f.toNat 0 + 2
  let fw := min fNeeded avail
  let remaining := avail - fw
  let share := Int.tdiv remaining ((n : Int) - 1)
  let ws0 := initWidthsGo share fw f reqs 0
  let leftover := remaining - sumSkip f 0 ws0
  if 0 < leftover then (growthPass f reqs ws0 leftover 0).2 else leftover

/-- Minimum width floor of over-budget default mode (line 453). -/
def minWidthFloor (i : Nat) : Int := if i = 4 ∨ i = 5 then 5 else 8

/-- Over-budget default mode: proportional shrink clamped to the floor. -/
def shrinkFloors (avail total : Int) : List Int → Nat → List Int
  | [], _ => []
  | r :: rs, i =>
    max (Int.tdiv (r * avail) total) (minWidthFloor i) :: shrinkFloors avail total rs (i + 1)

/-- Proportional growth pass of in-budget default mode (lines 435-441):
each column grows by `min ((required * extra) / totalRequired) 20`. -/
def propPass (total : Int) : List Int → Int → List Int × Int
  | [], extra => ([], extra)
  | r :: rs, extra =>
    if 0 < extra then
      let g := min (Int.tdiv (r * extra) total) 20
      let res := propPass total rs (extra - g)
      ((r + g) :: res.1, res.2)
    else
      let res := propPass total rs extra
      (r :: res.1, res.2)

/-- Default-mode width computation (lines 413-457). -/
def calcDefault (tw : Int) (n : Nat) (reqs : List Int) : List Int :=
  let avail := tw - ((n : Int) - 1) - 2
  let total := reqs.sum
  if total ≤ avail then
    let r1 := propPass total reqs (avail - total)
    (onePass (-1) r1.1 r1.2 0).1
  else
    shrinkFloors avail total reqs 0

/-- `calculateColumnWidths` (the source's unused `defaultWidths` parameter
is omitted; `data.allPendingJobs`, read by the pending "Higher" column,
is passed explicitly). -/
def calculateColumnWidths (terminalCols : Int) (numColumns : Nat) (jobs : List Job)
    (isPendingView : Bool) (allPending : List Job) (focusedColumn : Int) : List Int :=
  let reqs := reqList numColumns jobs isPendingView allPending
  if 0 ≤ focusedColumn ∧ focusedColumn < (numColumns : Int) then
    calcFocused terminalCols numColumns reqs focusedColumn
  else
    calcDefault terminalCols numColumns reqs

/-! ### View/input state machine (`handleInput`, lines 815-892) -/

inductive View
  | overview
  | runningView
  | pendingView
  | allView
deriving DecidableEq, Repr

inductive InputEvent
  | keyQ
  | keyR
  | key1
  | key2
  | key3
  | key4
  | keyUp
  | keyDown
  | keyLeft
  | keyRight
  | keyPageUp
  | keyPageDown
  | keyResize
  | keyOther
deriving DecidableEq, Repr

structure UIState where
  currentView : View
  scrollOffset : Int
  maxRows : Int
  focusedColumn : Int
  uiRunning : Bool
deriving DecidableEq, Repr

/-- Highest focusable column index for a view (lines 862, 870). -/
def maxColFor (v : View) : Int := if v = View.pendingView then 8 else 7

/-- `handleInput`, as a pure transition on the UI state.  The refresh key
additionally re-runs `fetchSlurmData` on the external snapshot, which is
not part of this state.  The final `if (scrollOffset < 0)` clamp of the
source is applied on every handled-key path, as in the source. -/
def handleInput (s : UIState) (e : InputEvent) : UIState :=
  let s' :=
    match e with
    | InputEvent.keyQ => { s with uiRunning := false }
    | InputEvent.keyR => { s with scrollOffset := 0 }
    | InputEvent.key1 =>
        { s with currentView := View.overview, scrollOffset := 0, focusedColumn := -1 }
    | InputEvent.key2 =>
        { s with currentView := View.runningView, scrollOffset := 0, focusedColumn := -1 }
    | InputEvent.key3 =>
        { s with currentView := View.pendingView, scrollOffset := 0, focusedColumn := -1 }
    | InputEvent.key4 =>
        { s with currentView := View.allView, scrollOffset := 0, focusedColumn := -1 }
    | InputEvent.keyUp =>
        if 0 < s.scrollOffset then { s with scrollOffset := s.scrollOffset - 1 } else s
    | InputEvent.keyDown => { s with scrollOffset := s.scrollOffset + 1 }
    | InputEvent.keyLeft =>
        if s.currentView ≠ View.overview then
          let fc := s.focusedColumn - 1
          { s with focusedColumn := if fc < -1 then maxColFor s.currentView else fc }
        else s
    | InputEvent.keyRight =>
        if s.currentView ≠ View.overview then
          let fc := s.focusedColumn + 1
          { s with focusedColumn := if maxColFor s.currentView < fc then -1 else fc }
        else s
    | InputEvent.keyPageUp => { s with scrollOffset := max 0 (s.scrollOffset - s.maxRows) }
    | InputEvent.keyPageDown => { s with scrollOffset := s.scrollOffset + s.maxRows }
    | InputEvent.keyResize => s
    | InputEvent.keyOther => s
  if s'.scrollOffset < 0 then { s' with scrollOffset := 0 } else s'

/-! ### Pending view display list (`drawPendingView`, lines 657-682) -/

/-- The record sequence the Pending view renders: the user's own
`PENDING` records, sorted descending by priority. -/
def pendingViewList (jobs : List Job) : List Job :=
  (jobs.filter (fun j => j.state == sPENDING)).mergeSort priorityGE

/-! ### Auxiliary quantities used by the layout theorems -/

/-- Number of indices in `[i, i + len)` different from `f`. -/
def countSkipNot (f : Int) : Nat → Nat → Nat
  | _, 0 => 0
  | i, len + 1 => (if (i : Int) = f then 0 else 1) + countSkipNot f (i + 1) len

/-- Sum of the per-column minimum floors of over-budget default mode. -/
def floorSum (n : Nat) : Int := ((List.range n).map minWidthFloor).sum

/-! ## Lemmas: string search -/

theorem isPrefixOfEquiv {l1 l2 : List Char} : l1.isPrefixOf l2 = true ↔ l1 <+: l2 :=
  List.isPrefixOf_iff_prefix

theorem findSub_none_iff {pat : List Char} :
    ∀ {l : List Char}, findSub pat l = none ↔ ∀ i, ¬ pat <+: l.drop i
  | [] => by
    by_cases h : pat <+: ([] : List Char)
    · rw [findSub, if_pos (isPrefixOfEquiv.mpr h)]
      constructor
      · intro hc; simp at hc
      · intro hall; exact absurd h (by simpa using hall 0)
    · rw [findSub, if_neg (fun hb => h (isPrefixOfEquiv.mp hb))]
      simp only [List.drop_nil]
      exact ⟨fun _ _ => h, fun _ => trivial⟩
  | c :: rest => by
    by_cases h : pat <+: (c :: rest)
    · rw [findSub, if_pos (isPrefixOfEquiv.mpr h)]
      constructor
      · intro hc; simp at hc
      · intro hall; exact absurd h (by simpa using hall 0)
    · rw [findSub, if_neg (fun hb => h (isPrefixOfEquiv.mp hb))]
      rw [Option.map_eq_none', findSub_none_iff]
      constructor
      · intro hall i
        cases i with
        | zero => simpa using h
        | succ j => simpa using hall j
      · intro hall j
        simpa using hall (j + 1)

theorem findSub_some {pat : List Char} :
    ∀ {l : List Char} {i : Nat}, findSub pat l = some i →
      pat <+: l.drop i ∧ ∀ j, j < i → ¬ pat <+: l.drop j
  | [], i => by
    by_cases h : pat <+: ([] : List Char)
    · rw [findSub, if_pos (isPrefixOfEquiv.mpr h)]
      intro hsome
      obtain rfl : (0 : Nat) = i := by simpa using hsome
      exact ⟨by simpa using h, fun j hj => absurd hj (by omega)⟩
    · rw [findSub, if_neg (fun hb => h (isPrefixOfEquiv.mp hb))]
      intro hsome; exact absurd hsome (by simp)
  | c :: rest, i => by
    by_cases h : pat <+: (c :: rest)
    · rw [findSub, if_pos (isPrefixOfEquiv.mpr h)]
      intro hsome
      obtain rfl : (0 : Nat) = i := by simpa using hsome
      exact ⟨by simpa using h, fun j hj => absurd hj (by omega)⟩
    · rw [findSub, if_neg (fun hb => h (isPrefixOfEquiv.mp hb))]
      intro hsome
      rw [Option.map_eq_some'] at hsome
      obtain ⟨i', hi', rfl⟩ := hsome
      obtain ⟨h1, h2⟩ := findSub_some hi'
      refine ⟨by simpa using h1, fun j hj => ?_⟩
      match j with
      | 0 => simpa using h
      | j' + 1 =>
        have := h2 j' (by omega)
        simpa using this

theorem findSub_eq_some_of_minimal {pat l : List Char} {i : Nat}
    (h1 : pat <+: l.drop i) (h2 : ∀ j, j < i → ¬ pat <+: l.drop j) :
    findSub pat l = some i := by
  cases hk : findSub pat l with
  | none => exact absurd h1 (findSub_none_iff.mp hk i)
  | some k =>
    obtain ⟨hk1, hk2⟩ := findSub_some hk
    rcases Nat.lt_trichotomy k i with h | h | h
    · exact absurd hk1 (h2 k h)
    · rw [h]
    · exact absurd h1 (hk2 i h)

theorem occursAsBlockIff {pat l : List Char} :
    (∃ i, pat <+: l.drop i) ↔ pat <:+: l := by
  constructor
  · rintro ⟨i, t, ht⟩
    exact ⟨l.take i, t, by rw [List.append_assoc, ht, List.take_append_drop]⟩
  · rintro ⟨s, t, hst⟩
    refine ⟨s.length, t, ?_⟩
    rw [← hst, List.append_assoc]
    simp

theorem findSub_single_none {c : Char} : ∀ {l : List Char}, c ∉ l → findSub [c] l = none
  | [], _ => by simp [findSub]
  | x :: rest, h => by
    simp only [List.mem_cons, not_or] at h
    have hx : ¬ [c] <+: (x :: rest) := by
      rintro ⟨t, ht⟩
      simp only [List.cons_append, List.cons.injEq] at ht
      exact h.1 ht.1
    rw [findSub, if_neg (fun hb => hx (isPrefixOfEquiv.mp hb))]
    rw [findSub_single_none h.2]
    rfl

theorem findSub_single_mem {c : Char} :
    ∀ {l : List Char}, c ∈ l →
      findSub [c] l = some ((l.takeWhile (fun x => !(x == c))).length)
  | x :: rest, h => by
    by_cases hx : x = c
    · subst hx
      have hpre : [x] <+: (x :: rest) := ⟨rest, rfl⟩
      simp only [findSub]
      rw [if_pos (by rw [isPrefixOfEquiv]; exact hpre)]
      simp [List.takeWhile_cons]
    · have hrest : c ∈ rest := by
        rcases List.mem_cons.mp h with h' | h'
        · exact absurd h'.symm hx
        · exact h'
      have hnpre : ¬ [c] <+: (x :: rest) := by
        rintro ⟨t, ht⟩
        simp only [List.cons_append, List.cons.injEq] at ht
        exact hx ht.1.symm
      simp only [findSub]
      rw [if_neg (by rw [isPrefixOfEquiv]; exact hnpre)]
      rw [findSub_single_mem hrest]
      simp [List.takeWhile_cons, Ne.symm, hx]

theorem take_takeWhile_length {p : Char → Bool} {l : List Char} :
    l.take (l.takeWhile p).length = l.takeWhile p := by
  have h : l.takeWhile p <+: l := List.takeWhile_prefix p
  have h2 := List.prefix_iff_eq_take.mp h
  exact h2.symm

/-! ## Lemmas: sanitizer and field extractor -/

theorem stripAux (s : List Char) : ∀ acc : List Char,
    s.foldl
      (fun acc c =>
        if 32 ≤ c.toNat ∧ c.toNat ≤ 126 then acc ++ [c]
        else if c = '\t' then acc ++ [' ']
        else acc)
      acc
      = acc ++ s.filterMap sanitizeChar := by
  induction s with
  | nil => intro acc; simp
  | cons c rest ih =>
    intro acc
    simp only [List.foldl_cons, List.filterMap_cons]
    by_cases h1 : 32 ≤ c.toNat ∧ c.toNat ≤ 126
    · rw [if_pos h1, ih, sanitizeChar, if_pos h1]
      simp
    · rw [if_neg h1]
      by_cases h2 : c = '\t'
      · rw [if_pos h2, ih, sanitizeChar, if_neg h1, if_pos h2]
        simp
      · rw [if_neg h2, ih, sanitizeChar, if_neg h1, if_neg h2]

theorem stripControlChars_eq_filterMap (s : List Char) :
    stripControlChars s = s.filterMap sanitizeChar := by
  rw [stripControlChars, stripAux]
  simp

theorem extractField_at {blob field : List Char} {i : Nat}
    (h1 : (field ++ ['=']) <+: blob.drop i)
    (h2 : ∀ j, j < i → ¬ (field ++ ['=']) <+: blob.drop j) :
    extractField blob field
      = stripControlChars (specSlice (blob.drop (i + field.length + 1))) := by
  have hfind := findSub_eq_some_of_minimal h1 h2
  have hlen : field.length + 1 ≤ blob.length - i := by
    have := h1.length_le
    simpa [List.length_drop] using this
  have hvb : i + field.length + 1 ≤ blob.length := by omega
  have hrlen : (blob.drop (i + field.length + 1)).length
      = blob.length - (i + field.length + 1) := by
    simp [List.length_drop]
  simp only [extractField, hfind]
  by_cases hsp : ' ' ∈ blob.drop (i + field.length + 1)
  · have hm := findSub_single_mem hsp
    rw [findCharFrom, findSubFrom, hm]
    simp only [Option.map_some']
    rw [specSlice, if_pos hsp, substrL, Nat.add_sub_cancel, take_takeWhile_length]
  · have hn := findSub_single_none hsp
    rw [findCharFrom, findSubFrom, hn]
    simp only [Option.map_none']
    by_cases hnl : '\n' ∈ blob.drop (i + field.length + 1)
    · have hm := findSub_single_mem hnl
      rw [findCharFrom, findSubFrom, hm]
      simp only [Option.map_some']
      rw [specSlice, if_neg hsp, if_pos hnl, substrL, Nat.add_sub_cancel,
        take_takeWhile_length]
    · have hn2 := findSub_single_none hnl
      rw [findCharFrom, findSubFrom, hn2]
      simp only [Option.map_none']
      rw [specSlice, if_neg hsp, if_neg hnl, substrL,
        List.take_of_length_le (by omega)]

theorem extractField_absent {blob field : List Char}
    (h : ¬ (field ++ ['=']) <:+: blob) : extractField blob field = [] := by
  have hall : ∀ i, ¬ (field ++ ['=']) <+: blob.drop i := by
    intro i hp
    exact h (occursAsBlockIff.mp ⟨i, hp⟩)
  rw [extractField, findSub_none_iff.mpr hall]

theorem parseJob_gpu_eq (jobId blob : List Char) :
    ((parseJobDetails jobId blob).gpuCount, (parseJobDetails jobId blob).gpuType)
      = (if extractField blob sJobState = sRUNNING then extractGPUInfo blob sAllocTRES
         else if (extractGPUInfo blob sReqTRES).1 = 0 then extractGPUInfo blob sAllocTRES
         else extractGPUInfo blob sReqTRES) := by
  simp only [parseJobDetails]

/-! ## Claim theorems: parsing pipeline -/

/-- Claim C7: `extractField` returns the empty string when `fieldName=` does
not occur in the blob, and otherwise the substring running from just after
the first such `=` up to the next space, else the next newline, else the end
of the blob, sanitized byte-wise (bytes 32–126 kept, tab mapped to a single
space, every other byte dropped). -/
theorem extractField_spec_claim (blob field : List Char) :
    stripControlChars blob = blob.filterMap sanitizeChar ∧
    (¬ (field ++ ['=']) <:+: blob → extractField blob field = []) ∧
    (∀ i, (field ++ ['=']) <+: blob.drop i →
      (∀ j, j < i → ¬ (field ++ ['=']) <+: blob.drop j) →
      extractField blob field
        = stripControlChars (specSlice (blob.drop (i + field.length + 1)))) :=
  ⟨stripControlChars_eq_filterMap blob, fun h => extractField_absent h,
   fun _ h1 h2 => extractField_at h1 h2⟩

theorem extractField_spec_claim_witness :
    extractField ("JobState=RUNNING Reason=None".toList) ("JobState".toList)
      = stripControlChars (specSlice (("JobState=RUNNING Reason=None".toList).drop
          (0 + ("JobState".toList).length + 1))) :=
  (extractField_spec_claim ("JobState=RUNNING Reason=None".toList)
      ("JobState".toList)).2.2 0
    (by decide) (fun j hj => absurd hj (Nat.not_lt_zero j))

/-- Claim C3: `parseJobDetails` reads GPU info only from `AllocTRES` when the
extracted state is `RUNNING` (a RUNNING record whose only GPU entry sits under
`ReqTRES` yields `gpuCount = 0`), and otherwise reads `ReqTRES` first, falling
back to `AllocTRES` exactly when that yields count 0 (a PENDING record with
GPU only under `AllocTRES` yields the `AllocTRES` value). -/
theorem parseJob_gpu_source_choice (jobId blob : List Char) :
    ((parseJobDetails jobId blob).state = sRUNNING →
      ((parseJobDetails jobId blob).gpuCount, (parseJobDetails jobId blob).gpuType)
        = extractGPUInfo blob sAllocTRES) ∧
    ((parseJobDetails jobId blob).state ≠ sRUNNING →
      ((parseJobDetails jobId blob).gpuCount, (parseJobDetails jobId blob).gpuType)
        = (if (extractGPUInfo blob sReqTRES).1 = 0 then extractGPUInfo blob sAllocTRES
           else extractGPUInfo blob sReqTRES)) ∧
    (parseJobDetails ("77".toList)
        ("JobId=77 JobState=RUNNING ReqTRES=cpu=2,gres/gpu=4 AllocTRES=cpu=2,mem=4G".toList)).gpuCount
      = 0 ∧
    (parseJobDetails ("78".toList)
        ("JobState=PENDING AllocTRES=cpu=2,gres/gpu=3 ReqTRES=cpu=2".toList)).gpuCount
      = 3 := by
  have hstate : (parseJobDetails jobId blob).state = extractField blob sJobState := rfl
  refine ⟨fun h => ?_, fun h => ?_, by decide, by decide⟩
  · rw [parseJob_gpu_eq, if_pos (hstate ▸ h)]
  · rw [parseJob_gpu_eq, if_neg (hstate ▸ h)]

theorem parseJob_gpu_source_choice_witness :
    ((parseJobDetails ("77".toList)
        ("JobId=77 JobState=RUNNING ReqTRES=cpu=2,gres/gpu=4 AllocTRES=cpu=2,mem=4G".toList)).gpuCount,
      (parseJobDetails ("77".toList)
        ("JobId=77 JobState=RUNNING ReqTRES=cpu=2,gres/gpu=4 AllocTRES=cpu=2,mem=4G".toList)).gpuType)
      = extractGPUInfo
          ("JobId=77 JobState=RUNNING ReqTRES=cpu=2,gres/gpu=4 AllocTRES=cpu=2,mem=4G".toList)
          sAllocTRES :=
  (parseJob_gpu_source_choice ("77".toList)
      ("JobId=77 JobState=RUNNING ReqTRES=cpu=2,gres/gpu=4 AllocTRES=cpu=2,mem=4G".toList)).1
    (by decide)

/-- Claim C4: when both the typed token `gres/gpu:` (with a following `=`)
and the untyped token `gres/gpu=` occur at or after the named field
position, `extractGPUInfo` returns the typed result — count parsed after the
type's `=`, type the sanitized substring between the colon and that `=`; in
particular `AllocTRES=cpu=4,gres/gpu:a100=2,gres/gpu=99` yields `(2, "a100")`,
not `(99, "generic")`. -/
theorem extractGPU_typed_first (blob field : List Char) (p t e u : Nat)
    (hp : findSub (field ++ ['=']) blob = some p)
    (ht : findSubFrom blob sGresTyped p = some t)
    (he : findCharFrom blob '=' (t + 9) = some e)
    (_hu : findSubFrom blob sGresUntyped p = some u) :
    extractGPUInfo blob field
      = (stoiOr0 (substrL blob (e + 1)
            (((findFirstOfFrom blob countDelims (e + 1)).getD blob.length) - (e + 1))),
         stripControlChars (substrL blob (t + 9) (e - (t + 9)))) ∧
    extractGPUInfo ("AllocTRES=cpu=4,gres/gpu:a100=2,gres/gpu=99".toList) sAllocTRES
      = (2, "a100".toList) := by
  constructor
  · simp only [extractGPUInfo, hp, ht, he]
    cases hd : findFirstOfFrom blob countDelims (e + 1) <;> simp [hd]
  · decide

theorem extractGPU_typed_first_witness :
    extractGPUInfo ("AllocTRES=cpu=4,gres/gpu:a100=2,gres/gpu=99".toList) sAllocTRES
      = (stoiOr0 (substrL ("AllocTRES=cpu=4,gres/gpu:a100=2,gres/gpu=99".toList) 30
            (((findFirstOfFrom ("AllocTRES=cpu=4,gres/gpu:a100=2,gres/gpu=99".toList)
                countDelims 30).getD
              ("AllocTRES=cpu=4,gres/gpu:a100=2,gres/gpu=99".toList).length) - 30)),
         stripControlChars
           (substrL ("AllocTRES=cpu=4,gres/gpu:a100=2,gres/gpu=99".toList) 25 (29 - 25))) :=
  (extractGPU_typed_first ("AllocTRES=cpu=4,gres/gpu:a100=2,gres/gpu=99".toList)
      sAllocTRES 0 16 29 32 (by decide) (by decide) (by decide) (by decide)).1

/-! ## Lemmas: snapshot aggregator -/

theorem ownedStep_fields (d : SlurmData) (job : Job) :
    (ownedStep d job).jobs = d.jobs ++ [job]
      ∧ (ownedStep d job).runningJobs
        = d.runningJobs + (if job.state = sRUNNING then 1 else 0)
      ∧ (ownedStep d job).pendingJobs
        = d.pendingJobs + (if job.state = sPENDING then 1 else 0) := by
  have hRP : ¬ sRUNNING = sPENDING := by decide
  have hPR : ¬ sPENDING = sRUNNING := by decide
  by_cases h1 : job.state = sRUNNING
  · have h2 : job.state ≠ sPENDING := by rw [h1]; exact hRP
    simp [ownedStep, h1, h2, hRP]
  · by_cases h2 : job.state = sPENDING <;> simp [ownedStep, h1, h2, hPR]

theorem processOwned_inv (fetch : List Char → List Char) :
    ∀ (ids : List (List Char)) (d : SlurmData),
      d.runningJobs = (d.jobs.countP (fun j => j.state == sRUNNING) : Int) →
      d.pendingJobs = (d.jobs.countP (fun j => j.state == sPENDING) : Int) →
      (processOwned fetch ids d).runningJobs
          = ((processOwned fetch ids d).jobs.countP (fun j => j.state == sRUNNING) : Int)
        ∧ (processOwned fetch ids d).pendingJobs
          = ((processOwned fetch ids d).jobs.countP (fun j => j.state == sPENDING) : Int)
  | [], d => fun hr hp => ⟨hr, hp⟩
  | jid :: rest, d => by
    intro hr hp
    rw [processOwned]
    by_cases hout : fetch jid = []
    · rw [if_pos hout]
      exact processOwned_inv fetch rest d hr hp
    · rw [if_neg hout]
      obtain ⟨hj, hrr, hpp⟩ := ownedStep_fields d (parseJobDetails jid (fetch jid))
      refine processOwned_inv fetch rest _ ?_ ?_
      · rw [hrr, hj, hr]
        by_cases hst : (parseJobDetails jid (fetch jid)).state = sRUNNING <;>
          simp [List.countP_append, List.countP_cons, hst]
      · rw [hpp, hj, hp]
        by_cases hst : (parseJobDetails jid (fetch jid)).state = sPENDING <;>
          simp [List.countP_append, List.countP_cons, hst]

theorem countP_running_pending_le (l : List Job) :
    l.countP (fun j => j.state == sRUNNING) + l.countP (fun j => j.state == sPENDING)
      ≤ l.length := by
  induction l with
  | nil => simp
  | cons j rest ih =>
    simp only [List.countP_cons, List.length_cons]
    by_cases h : j.state = sRUNNING
    · have h1 : (j.state == sRUNNING) = true := by simp [h]
      have h2 : (j.state == sPENDING) = false := by rw [h]; decide
      simp [h1, h2]
      omega
    · have h1 : (j.state == sRUNNING) = false := by simp [h]
      by_cases h2 : j.state = sPENDING
      · have h2' : (j.state == sPENDING) = true := by simp [h2]
        simp [h1, h2']
        omega
      · have h2' : (j.state == sPENDING) = false := by simp [h2]
        simp [h1, h2']
        omega

theorem processPending_pos (fetch : List Char → List Char) :
    ∀ (ids : List (List Char)) (acc : List Job),
      (∀ j ∈ acc, 0 < j.priority) →
      ∀ j ∈ processPending fetch ids acc, 0 < j.priority
  | [], acc => fun h => h
  | jid :: rest, acc => by
    intro hacc
    rw [processPending]
    by_cases hout : fetch jid = []
    · rw [if_pos hout]
      exact processPending_pos fetch rest acc hacc
    · rw [if_neg hout]
      refine processPending_pos fetch rest _ ?_
      rw [pendingStep]
      by_cases hpr : 0 < (parseJobDetails jid (fetch jid)).priority
      · rw [if_pos hpr]
        intro j hj
        rcases List.mem_append.mp hj with h | h
        · exact hacc j h
        · rw [List.mem_singleton.mp h]; exact hpr
      · rw [if_neg hpr]
        exact hacc

theorem priorityGE_trans : ∀ a b c : Job, priorityGE a b → priorityGE b c → priorityGE a c := by
  intro a b c hab hbc
  simp only [priorityGE, decide_eq_true_eq] at *
  omega

theorem priorityGE_total : ∀ a b : Job, priorityGE a b || priorityGE b a := by
  intro a b
  simp only [priorityGE, Bool.or_eq_true, decide_eq_true_eq]
  omega

/-! ## Claim theorems: snapshot aggregator and views -/

/-- Claim C5: after any refresh, `totalJobs` equals the length of `jobs`,
`runningJobs`/`pendingJobs` count the records with state exactly
`RUNNING`/`PENDING`, and `runningJobs + pendingJobs ≤ totalJobs`. -/
theorem fetch_aggregate_claim (username : List Char) (ownedIds pendingIds : List (List Char))
    (fetch : List Char → List Char) :
    (fetchSlurmData username ownedIds pendingIds fetch).totalJobs
        = ((fetchSlurmData username ownedIds pendingIds fetch).jobs.length : Int)
      ∧ (fetchSlurmData username ownedIds pendingIds fetch).runningJobs
        = ((fetchSlurmData username ownedIds pendingIds fetch).jobs.countP
            (fun j => j.state == sRUNNING) : Int)
      ∧ (fetchSlurmData username ownedIds pendingIds fetch).pendingJobs
        = ((fetchSlurmData username ownedIds pendingIds fetch).jobs.countP
            (fun j => j.state == sPENDING) : Int)
      ∧ (fetchSlurmData username ownedIds pendingIds fetch).runningJobs
          + (fetchSlurmData username ownedIds pendingIds fetch).pendingJobs
        ≤ (fetchSlurmData username ownedIds pendingIds fetch).totalJobs := by
  have hinv := processOwned_inv fetch ownedIds (clearedData username) (by simp [clearedData])
    (by simp [clearedData])
  have hjobs : (fetchSlurmData username ownedIds pendingIds fetch).jobs
      = (processOwned fetch ownedIds (clearedData username)).jobs := rfl
  have hrun : (fetchSlurmData username ownedIds pendingIds fetch).runningJobs
      = (processOwned fetch ownedIds (clearedData username)).runningJobs := rfl
  have hpen : (fetchSlurmData username ownedIds pendingIds fetch).pendingJobs
      = (processOwned fetch ownedIds (clearedData username)).pendingJobs := rfl
  have htot : (fetchSlurmData username ownedIds pendingIds fetch).totalJobs
      = ((processOwned fetch ownedIds (clearedData username)).jobs.length : Int) := rfl
  refine ⟨by rw [htot, hjobs], by rw [hrun, hjobs]; exact hinv.1,
    by rw [hpen, hjobs]; exact hinv.2, ?_⟩
  rw [htot, hrun, hpen, hinv.1, hinv.2]
  have := countP_running_pending_le (processOwned fetch ownedIds (clearedData username)).jobs
  exact_mod_cast this

/-- Claim C6: after any refresh, every member of `allPendingJobs` has
positive priority, and adjacent pairs are in descending priority order. -/
theorem allPending_sorted_claim (username : List Char) (ownedIds pendingIds : List (List Char))
    (fetch : List Char → List Char) :
    List.Chain' (fun a b => b.priority ≤ a.priority)
        (fetchSlurmData username ownedIds pendingIds fetch).allPendingJobs
      ∧ ∀ j ∈ (fetchSlurmData username ownedIds pendingIds fetch).allPendingJobs,
          0 < j.priority := by
  have happ : (fetchSlurmData username ownedIds pendingIds fetch).allPendingJobs
      = (processPending fetch pendingIds []).mergeSort priorityGE := rfl
  constructor
  · rw [happ]
    have hp := List.sorted_mergeSort priorityGE_trans priorityGE_total
      (processPending fetch pendingIds [])
    exact (hp.imp (fun h => by simpa [priorityGE, decide_eq_true_eq] using h)).chain'
  · intro j hj
    rw [happ, List.mem_mergeSort] at hj
    exact processPending_pos fetch pendingIds [] (by simp) j hj

/-- Claim C10: the Pending view renders exactly the user's own records with
state `PENDING`, sorted in descending order by priority. -/
theorem pendingView_claim (jobs : List Job) :
    (pendingViewList jobs).Perm (jobs.filter (fun j => j.state == sPENDING))
      ∧ List.Chain' (fun a b => b.priority ≤ a.priority) (pendingViewList jobs)
      ∧ ∀ j ∈ pendingViewList jobs, j.state = sPENDING := by
  refine ⟨List.mergeSort_perm _ _, ?_, ?_⟩
  · have hp := List.sorted_mergeSort priorityGE_trans priorityGE_total
      (jobs.filter (fun j => j.state == sPENDING))
    exact (hp.imp (fun h => by simpa [priorityGE, decide_eq_true_eq] using h)).chain'
  · intro j hj
    rw [pendingViewList, List.mem_mergeSort, List.mem_filter] at hj
    exact eq_of_beq hj.2

/-- Claim C8: in every UI state, the refresh event resets `scrollOffset` to 0
and leaves `focusedColumn` and the current view unchanged, whereas each
view-selection event resets `scrollOffset` to 0 and `focusedColumn` to -1. -/
theorem handleInput_claim (s : UIState) :
    (handleInput s InputEvent.keyR).scrollOffset = 0
      ∧ (handleInput s InputEvent.keyR).focusedColumn = s.focusedColumn
      ∧ (handleInput s InputEvent.keyR).currentView = s.currentView
      ∧ ∀ e ∈ [InputEvent.key1, InputEvent.key2, InputEvent.key3, InputEvent.key4],
          (handleInput s e).scrollOffset = 0 ∧ (handleInput s e).focusedColumn = -1 := by
  refine ⟨by simp [handleInput], by simp [handleInput], by simp [handleInput], ?_⟩
  intro e he
  fin_cases he <;> exact ⟨by simp [handleInput], by simp [handleInput]⟩

/-! ## Lemmas: layout engine arithmetic -/

theorem tdiv_le_of_le_total {r total extra : Int} (hr : 0 ≤ r) (hrt : r ≤ total)
    (htot : 0 < total) (he : 0 ≤ extra) : Int.tdiv (r * extra) total ≤ extra := by
  rw [Int.tdiv_eq_ediv (by positivity) (by omega)]
  calc r * extra / total ≤ total * extra / total :=
        Int.ediv_le_ediv htot (by nlinarith)
    _ = extra := Int.mul_ediv_cancel_left extra (by omega)

theorem mul_tdiv_le_self {a b : Int} (ha : 0 ≤ a) (hb : 0 < b) :
    b * Int.tdiv a b ≤ a := by
  rw [Int.tdiv_eq_ediv ha (by omega)]
  have h1 := Int.ediv_add_emod a b
  have h2 := Int.emod_nonneg a (by omega : b ≠ 0)
  omega

theorem countSkipNot_all (f : Int) :
    ∀ (len i : Nat), (f < (i : Int) ∨ (i : Int) + (len : Int) ≤ f) →
      countSkipNot f i len = len
  | 0, i => by intro _; rfl
  | len + 1, i => by
    intro h
    have hif : (i : Int) ≠ f := by push_cast at h; omega
    rw [countSkipNot, if_neg hif, countSkipNot_all f len (i + 1) (by push_cast at h ⊢; omega)]
    omega

theorem countSkipNot_in_range (f : Int) :
    ∀ (len i : Nat), (i : Int) ≤ f → f < (i : Int) + (len : Int) →
      (countSkipNot f i len : Int) = (len : Int) - 1
  | 0, i => by intro h1 h2; push_cast at h2; omega
  | len + 1, i => by
    intro h1 h2
    by_cases hif : (i : Int) = f
    · rw [countSkipNot, if_pos hif,
        countSkipNot_all f len (i + 1) (Or.inl (by push_cast; omega))]
      push_cast
      omega
    · rw [countSkipNot, if_neg hif]
      have := countSkipNot_in_range f len (i + 1) (by push_cast; omega)
        (by push_cast at h2 ⊢; omega)
      push_cast at this ⊢
      omega

theorem initWidthsGo_length (share fw f : Int) :
    ∀ (rs : List Int) (i : Nat), (initWidthsGo share fw f rs i).length = rs.length
  | [], _ => rfl
  | r :: rs, i => by
    simp [initWidthsGo, initWidthsGo_length share fw f rs (i + 1)]

theorem sumSkip_nonmem (f : Int) :
    ∀ (ws : List Int) (i : Nat), (f < (i : Int) ∨ (i : Int) + (ws.length : Int) ≤ f) →
      sumSkip f i ws = ws.sum
  | [], i => by intro _; simp [sumSkip]
  | w :: ws, i => by
    intro h
    have hif : (i : Int) ≠ f := by push_cast [List.length_cons] at h; omega
    rw [sumSkip, if_neg hif,
      sumSkip_nonmem f ws (i + 1) (by push_cast [List.length_cons] at h ⊢; omega)]
    simp

theorem initWidthsGo_sum_split (share fw f : Int) :
    ∀ (rs : List Int) (i : Nat), (i : Int) ≤ f → f < (i : Int) + (rs.length : Int) →
      (initWidthsGo share fw f rs i).sum
        = fw + sumSkip f i (initWidthsGo share fw f rs i)
  | [], i => by
    intro h1 h2
    push_cast [List.length_nil] at h2
    omega
  | r :: rs, i => by
    intro h1 h2
    by_cases hif : (i : Int) = f
    · simp only [initWidthsGo, sumSkip, if_pos hif]
      rw [sumSkip_nonmem f _ (i + 1) (Or.inl (by push_cast; omega))]
      simp
    · simp only [initWidthsGo, sumSkip, if_neg hif]
      rw [List.sum_cons,
        initWidthsGo_sum_split share fw f rs (i + 1) (by push_cast; omega)
          (by push_cast [List.length_cons] at h2 ⊢; omega)]
      ring

theorem sumSkip_initWidthsGo_le (share fw f : Int) :
    ∀ (rs : List Int) (i : Nat),
      sumSkip f i (initWidthsGo share fw f rs i)
        ≤ (countSkipNot f i rs.length : Int) * share
  | [], i => by simp [sumSkip, initWidthsGo, countSkipNot]
  | r :: rs, i => by
    have ih := sumSkip_initWidthsGo_le share fw f rs (i + 1)
    by_cases hif : (i : Int) = f
    · simp only [initWidthsGo, sumSkip, List.length_cons, countSkipNot, if_pos hif]
      simpa using ih
    · simp only [initWidthsGo, sumSkip, List.length_cons, countSkipNot, if_neg hif]
      have hm : min r share ≤ share := min_le_right r share
      push_cast
      nlinarith [ih, hm]

theorem growthPass_length (f : Int) (reqs : List Int) (ws : List Int) :
    ∀ (l : Int) (i : Nat), (growthPass f reqs ws l i).1.length = ws.length := by
  induction ws with
  | nil => intro l i; rfl
  | cons w ws ih =>
    intro l i
    simp only [growthPass]
    by_cases h1 : 0 < l ∧ (i : Int) ≠ f
    · simp only [if_pos h1]
      by_cases h2 : 0 < reqs.getD i 0 - w
      · simp only [if_pos h2, List.length_cons, ih]
      · simp only [if_neg h2, List.length_cons, ih]
    · simp only [if_neg h1, List.length_cons, ih]

theorem growthPass_sum (f : Int) (reqs : List Int) (ws : List Int) :
    ∀ (l : Int) (i : Nat),
      (growthPass f reqs ws l i).1.sum + (growthPass f reqs ws l i).2 = ws.sum + l := by
  induction ws with
  | nil => intro l i; simp [growthPass]
  | cons w ws ih =>
    intro l i
    simp only [growthPass]
    by_cases h1 : 0 < l ∧ (i : Int) ≠ f
    · simp only [if_pos h1]
      by_cases h2 : 0 < reqs.getD i 0 - w
      · simp only [if_pos h2, List.sum_cons]
        have := ih (l - min (reqs.getD i 0 - w) l) (i + 1)
        omega
      · simp only [if_neg h2, List.sum_cons]
        have := ih l (i + 1)
        omega
    · simp only [if_neg h1, List.sum_cons]
      have := ih l (i + 1)
      omega

theorem growthPass_leftover_nonneg (f : Int) (reqs : List Int) (ws : List Int) :
    ∀ (l : Int) (i : Nat), 0 ≤ l → 0 ≤ (growthPass f reqs ws l i).2 := by
  induction ws with
  | nil => intro l i h; exact h
  | cons w ws ih =>
    intro l i h
    simp only [growthPass]
    by_cases h1 : 0 < l ∧ (i : Int) ≠ f
    · simp only [if_pos h1]
      by_cases h2 : 0 < reqs.getD i 0 - w
      · simp only [if_pos h2]
        exact ih (l - min (reqs.getD i 0 - w) l) (i + 1) (by omega)
      · simp only [if_neg h2]
        exact ih l (i + 1) h
    · simp only [if_neg h1]
      exact ih l (i + 1) h

theorem onePass_sum (f : Int) (ws : List Int) :
    ∀ (l : Int) (i : Nat),
      (onePass f ws l i).1.sum + (onePass f ws l i).2 = ws.sum + l := by
  induction ws with
  | nil => intro l i; simp [onePass]
  | cons w ws ih =>
    intro l i
    simp only [onePass]
    by_cases h1 : 0 < l ∧ (i : Int) ≠ f
    · simp only [if_pos h1, List.sum_cons]
      have := ih (l - 1) (i + 1)
      omega
    · simp only [if_neg h1, List.sum_cons]
      have := ih l (i + 1)
      omega

theorem onePass_leftover (f : Int) (ws : List Int) :
    ∀ (l : Int) (i : Nat), 0 ≤ l →
      (onePass f ws l i).2 = max 0 (l - (countSkipNot f i ws.length : Int)) := by
  induction ws with
  | nil =>
    intro l i h
    simp only [onePass, List.length_nil, countSkipNot]
    omega
  | cons w ws ih =>
    intro l i h
    simp only [onePass, List.length_cons]
    by_cases h1 : 0 < l ∧ (i : Int) ≠ f
    · simp only [if_pos h1]
      rw [ih (l - 1) (i + 1) (by omega), countSkipNot, if_neg h1.2]
      push_cast
      omega
    · simp only [if_neg h1]
      rw [ih l (i + 1) h, countSkipNot]
      by_cases hif : (i : Int) = f
      · rw [if_pos hif]
        push_cast
        omega
      · rw [if_neg hif]
        have hl : l = 0 := by
          rcases not_and_or.mp h1 with hc | hc

          · omega
          · exact absurd hif hc
        subst hl
        push_cast
        omega

theorem propPass_sum (total : Int) (rs : List Int) :
    ∀ extra : Int,
      (propPass total rs extra).1.sum + (propPass total rs extra).2 = rs.sum + extra := by
  induction rs with
  | nil => intro extra; simp [propPass]
  | cons r rs ih =>
    intro extra
    simp only [propPass]
    by_cases h1 : 0 < extra
    · simp only [if_pos h1, List.sum_cons]
      have := ih (extra - min (Int.tdiv (r * extra) total) 20)
      omega
    · simp only [if_neg h1, List.sum_cons]
      have := ih extra
      omega

theorem propPass_extra_nonneg (total : Int) (htot : 0 < total) :
    ∀ (rs : List Int), (∀ r ∈ rs, 0 ≤ r ∧ r ≤ total) →
      ∀ extra : Int, 0 ≤ extra → 0 ≤ (propPass total rs extra).2
  | [] => by intro _ extra he; exact he
  | r :: rs => by
    intro hb extra he
    simp only [propPass]
    by_cases h1 : 0 < extra
    · simp only [if_pos h1]
      obtain ⟨hr0, hrt⟩ := hb r (List.mem_cons_self r rs)
      have hd : Int.tdiv (r * extra) total ≤ extra :=
        tdiv_le_of_le_total hr0 hrt htot he
      exact propPass_extra_nonneg total htot rs
        (fun x hx => hb x (List.mem_cons_of_mem r hx)) _ (by omega)
    · simp only [if_neg h1]
      exact propPass_extra_nonneg total htot rs
        (fun x hx => hb x (List.mem_cons_of_mem r hx)) extra he

theorem onePass_leftover_nonneg (f : Int) (ws : List Int)
    (l : Int) (i : Nat) (h : 0 ≤ l) : 0 ≤ (onePass f ws l i).2 := by
  rw [onePass_leftover f ws l i h]
  omega

theorem getMaxColumnWidth_pos (i : Nat) (jobs : List Job) (pv : Bool) (allP : List Job) :
    1 ≤ getMaxColumnWidth i jobs pv allP := by
  simp only [getMaxColumnWidth]
  omega

theorem reqList_length (n : Nat) (jobs : List Job) (pv : Bool) (allP : List Job) :
    (reqList n jobs pv allP).length = n := by
  simp [reqList]

theorem reqList_pos (n : Nat) (jobs : List Job) (pv : Bool) (allP : List Job) :
    ∀ r ∈ reqList n jobs pv allP, 1 ≤ r := by
  intro r hr
  simp only [reqList, List.mem_map] at hr
  obtain ⟨i, _, rfl⟩ := hr
  exact getMaxColumnWidth_pos i jobs pv allP

theorem sum_ge_length_of_one_le :
    ∀ {l : List Int}, (∀ r ∈ l, 1 ≤ r) → (l.length : Int) ≤ l.sum
  | [] => by intro _; simp
  | r :: rs => by
    intro h
    have h1 := h r (List.mem_cons_self r rs)
    have h2 := sum_ge_length_of_one_le (fun x hx => h x (List.mem_cons_of_mem r hx))
    simp only [List.length_cons, List.sum_cons]
    push_cast
    omega

theorem calcFocused_sum (tw : Int) (n : Nat) (reqs : List Int) (f : Int)
    (hn : 2 ≤ n) (hf0 : 0 ≤ f) (hfn : f < (n : Int)) (hlen : reqs.length = n) :
    (calcFocused tw n reqs f).sum
      = (tw - ((n : Int) - 1) - 2)
        - max 0 (focusedGrowthLeftover tw n reqs f - ((n : Int) - 1)) := by
  simp only [calcFocused, focusedGrowthLeftover]
  set avail := tw - ((n : Int) - 1) - 2 with ha
  set fw := min (reqs.getD f.toNat 0 + 2) avail with hfw
  set remaining := avail - fw with hrem
  set share := Int.tdiv remaining ((n : Int) - 1) with hshare
  set ws0 := initWidthsGo share fw f reqs 0 with hws0
  set l0 := remaining - sumSkip f 0 ws0 with hl0
  have hrm : 0 ≤ remaining := by rw [hrem, hfw]; omega
  have hn1 : 0 < (n : Int) - 1 := by omega
  have hcount : (countSkipNot f 0 reqs.length : Int) = (n : Int) - 1 := by
    rw [hlen]
    exact countSkipNot_in_range f n 0 (by push_cast; omega) (by push_cast; omega)
  have hsumskip : sumSkip f 0 ws0 ≤ remaining := by
    have h1 := sumSkip_initWidthsGo_le share fw f reqs 0
    have h2 : ((n : Int) - 1) * share ≤ remaining := mul_tdiv_le_self hrm hn1
    rw [hcount] at h1
    calc sumSkip f 0 ws0 ≤ ((n : Int) - 1) * share := h1
      _ ≤ remaining := h2
  have hl0nn : 0 ≤ l0 := by rw [hl0]; omega
  have hsplit : ws0.sum = fw + sumSkip f 0 ws0 :=
    initWidthsGo_sum_split share fw f reqs 0 (by push_cast; omega)
      (by push_cast [hlen]; omega)
  have hws0len : ws0.length = n := by rw [hws0, initWidthsGo_length, hlen]
  by_cases hpos : 0 < l0
  · simp only [if_pos hpos]
    have hg_sum := growthPass_sum f reqs ws0 l0 0
    have hg_nn := growthPass_leftover_nonneg f reqs ws0 l0 0 hl0nn
    have hg_len := growthPass_length f reqs ws0 l0 0
    have ho_sum := onePass_sum f (growthPass f reqs ws0 l0 0).1
      (growthPass f reqs ws0 l0 0).2 0
    have ho_left := onePass_leftover f (growthPass f reqs ws0 l0 0).1
      (growthPass f reqs ws0 l0 0).2 0 hg_nn
    have hcount' : (countSkipNot f 0 n : Int) = (n : Int) - 1 :=
      countSkipNot_in_range f n 0 (by push_cast; omega) (by push_cast; omega)
    rw [hg_len, hws0len, hcount'] at ho_left
    omega
  · simp only [if_neg hpos]
    have hl0z : l0 = 0 := by omega
    have hmaxz : max 0 (l0 - ((n : Int) - 1)) = 0 := by omega
    omega

/-! ## Claim theorems: layout engine -/

/-- Claim C1 (amended): in focused mode the leftover is redistributed in two
passes — growth toward required widths in index order, then a single sweep
adding one unit per non-focused column (at most `columnCount - 1` units, not
"until exhausted") — so the assigned widths sum to the available budget
minus `max 0 (L - (columnCount - 1))`, where `L` is the leftover remaining
after the growth pass; the sum equals the available budget exactly when
`L ≤ columnCount - 1`. -/
theorem calcWidths_focused_sum (tw : Int) (n : Nat) (jobs allP : List Job) (pv : Bool)
    (f : Int) (hn : 2 ≤ n) (hf0 : 0 ≤ f) (hfn : f < (n : Int)) :
    (calculateColumnWidths tw n jobs pv allP f).sum
        = (tw - ((n : Int) - 1) - 2)
          - max 0 (focusedGrowthLeftover tw n (reqList n jobs pv allP) f - ((n : Int) - 1))
      ∧ (focusedGrowthLeftover tw n (reqList n jobs pv allP) f ≤ (n : Int) - 1 →
          (calculateColumnWidths tw n jobs pv allP f).sum
            = tw - ((n : Int) - 1) - 2) := by
  have hcw : calculateColumnWidths tw n jobs pv allP f
      = calcFocused tw n (reqList n jobs pv allP) f := by
    simp only [calculateColumnWidths]
    rw [if_pos ⟨hf0, hfn⟩]
  have h := calcFocused_sum tw n (reqList n jobs pv allP) f hn hf0 hfn
    (reqList_length n jobs pv allP)
  rw [hcw, h]
  exact ⟨rfl, fun hle => by omega⟩

theorem calcWidths_focused_sum_counterexample :
    focusedLeftover0 200 8 (reqList 8 [] false []) 0 = 128
      ∧ 0 ≤ focusedLeftover0 200 8 (reqList 8 [] false []) 0
      ∧ (calculateColumnWidths 200 8 [] false [] 0).sum = 70
      ∧ 200 - ((8 : Int) - 1) - 2 = 191
      ∧ (calculateColumnWidths 200 8 [] false [] 0).sum ≠ 200 - ((8 : Int) - 1) - 2 :=
  ⟨by decide, by decide, by decide, by decide, by decide⟩

theorem calcWidths_focused_sum_witness :
    (calculateColumnWidths 200 8 [] false [] 0).sum
      = (200 - ((8 : Int) - 1) - 2)
        - max 0 (focusedGrowthLeftover 200 8 (reqList 8 [] false []) 0 - ((8 : Int) - 1)) :=
  (calcWidths_focused_sum 200 8 [] [] false 0 (by decide) (by decide) (by decide)).1

theorem shrinkFloors_getD (avail total : Int) :
    ∀ (rs : List Int) (i0 j : Nat), j < rs.length →
      minWidthFloor (i0 + j) ≤ (shrinkFloors avail total rs i0).getD j 0
  | [], i0, j => by intro h; simp at h
  | r :: rs, i0, j => by
    intro h
    cases j with
    | zero =>
      simp only [shrinkFloors, List.getD_cons_zero, Nat.add_zero]
      exact le_max_right _ _
    | succ j' =>
      simp only [shrinkFloors, List.getD_cons_succ]
      have := shrinkFloors_getD avail total rs (i0 + 1) j' (by simpa using h)
      have harith : i0 + (j' + 1) = (i0 + 1) + j' := by omega
      rw [harith]
      exact this

/-- Claim C2: in default mode, for any terminal width at least the sum of the
column floors: when the total required width fits the available budget, the
assigned widths satisfy `sum + (columnCount - 1) + 2 ≤ terminalWidth`; when
over budget, every assigned width is at least its floor (5 at indices 4 and 5,
8 elsewhere). -/
theorem calcWidths_default_budget (tw : Int) (n : Nat) (jobs allP : List Job) (pv : Bool)
    (hn : 1 ≤ n) (_htw : floorSum n ≤ tw) :
    ((reqList n jobs pv allP).sum ≤ tw - ((n : Int) - 1) - 2 →
      (calculateColumnWidths tw n jobs pv allP (-1)).sum + ((n : Int) - 1) + 2 ≤ tw)
    ∧ (tw - ((n : Int) - 1) - 2 < (reqList n jobs pv allP).sum →
      ∀ i, i < n →
        minWidthFloor i ≤ (calculateColumnWidths tw n jobs pv allP (-1)).getD i 0) := by
  have hcw : calculateColumnWidths tw n jobs pv allP (-1)
      = calcDefault tw n (reqList n jobs pv allP) := by
    simp only [calculateColumnWidths]
    rw [if_neg (by push_neg; intro h; omega)]
  have hpos := reqList_pos n jobs pv allP
  have hlen := reqList_length n jobs pv allP
  have htotal : 0 < (reqList n jobs pv allP).sum := by
    have h1 := sum_ge_length_of_one_le hpos
    rw [hlen] at h1
    have h2 : (1 : Int) ≤ (n : Int) := by omega
    omega
  constructor
  · intro hfit
    rw [hcw]
    simp only [calcDefault]
    rw [if_pos (by omega)]
    have hp_sum := propPass_sum (reqList n jobs pv allP).sum (reqList n jobs pv allP)
      (tw - ((n : Int) - 1) - 2 - (reqList n jobs pv allP).sum)
    have hp_nn := propPass_extra_nonneg (reqList n jobs pv allP).sum htotal
      (reqList n jobs pv allP)
      (fun r hr => ⟨by have := hpos r hr; omega,
        List.single_le_sum (fun x hx => by have := hpos x hx; omega) r hr⟩)
      (tw - ((n : Int) - 1) - 2 - (reqList n jobs pv allP).sum) (by omega)
    have ho_sum := onePass_sum (-1)
      (propPass (reqList n jobs pv allP).sum (reqList n jobs pv allP)
        (tw - ((n : Int) - 1) - 2 - (reqList n jobs pv allP).sum)).1
      (propPass (reqList n jobs pv allP).sum (reqList n jobs pv allP)
        (tw - ((n : Int) - 1) - 2 - (reqList n jobs pv allP).sum)).2 0
    have ho_nn := onePass_leftover_nonneg (-1)
      (propPass (reqList n jobs pv allP).sum (reqList n jobs pv allP)
        (tw - ((n : Int) - 1) - 2 - (reqList n jobs pv allP).sum)).1
      (propPass (reqList n jobs pv allP).sum (reqList n jobs pv allP)
        (tw - ((n : Int) - 1) - 2 - (reqList n jobs pv allP).sum)).2 0 hp_nn
    omega
  · intro hover i hi
    rw [hcw]
    simp only [calcDefault]
    rw [if_neg (by omega)]
    have := shrinkFloors_getD (tw - ((n : Int) - 1) - 2) (reqList n jobs pv allP).sum
      (reqList n jobs pv allP) 0 i (by omega)
    simpa using this

theorem calcWidths_default_budget_witness :
    (calculateColumnWidths 200 8 [] false [] (-1)).sum + ((8 : Int) - 1) + 2 ≤ 200 :=
  (calcWidths_default_budget 200 8 [] [] false (by decide) (by decide)).1 (by decide)

/-- Claim C9: focused mode applies no minimum-width floor to non-focused
columns — at terminal width 17 with column 0 focused and no jobs, every
non-focused column is assigned width 0 — unlike default over-budget mode,
where every column is floored at 5 or 8. -/
theorem focused_no_floor_claim :
    (calculateColumnWidths 17 8 [] false [] 0).getD 1 0 = 0
      ∧ calculateColumnWidths 17 8 [] false [] 0 = [8, 0, 0, 0, 0, 0, 0, 0]
      ∧ ∀ w ∈ calculateColumnWidths 17 8 [] false [] (-1), 5 ≤ w :=
  ⟨by decide, by decide, by decide⟩

end SlurmTop
